import Mathlib

/-!
Verification of the persistence-encoding and schema-repair layer of the
indexer repository.

The development shallowly embeds:

* `byteArray` with its `MarshalText` / `UnmarshalText` methods, from
  `src/idb/postgres/internal/encoding/types.go` (byte strings are `List Nat`
  with every element below 256);
* standard base64 encoding and decoding, modelling the `Base64` and
  `decodeBase64` helpers of the encoding package, which are not part of the
  provided sources;
* a representative Ledger Record with binary fields and a byte-keyed map,
  together with its persisted form, modelling the override-field codec
  described by the specification;
* the stale-account-data clear migration, the freeze participation repair
  migration, the metastate accessor and the migration engine, modelled from
  the specification (their implementations are not part of the provided
  sources; only their integration tests are).
-/

/-- A byte string: a list of naturals, each below 256. -/
def validBytes (bs : List Nat) : Prop := ∀ b ∈ bs, b < 256

instance : DecidablePred validBytes := fun bs =>
  inferInstanceAs (Decidable (∀ b ∈ bs, b < 256))

/-- Modelled from the spec: the standard base64 alphabet, mapping a sextet
(a value below 64) to its ASCII code. -/
def encodeChar (n : Nat) : Nat :=
  if n < 26 then 65 + n
  else if n < 52 then 97 + (n - 26)
  else if n < 62 then 48 + (n - 52)
  else if n = 62 then 43
  else 47

/-- Modelled from the spec: the inverse of the base64 alphabet; ASCII codes
outside the alphabet (including the padding character 61) map to `none`. -/
def decodeChar (c : Nat) : Option Nat :=
  if 65 ≤ c ∧ c ≤ 90 then some (c - 65)
  else if 97 ≤ c ∧ c ≤ 122 then some (c - 97 + 26)
  else if 48 ≤ c ∧ c ≤ 57 then some (c - 48 + 52)
  else if c = 43 then some 62
  else if c = 47 then some 63
  else none

/-- Modelled from the spec: standard base64 encoding of a byte string into a
list of ASCII codes, with trailing `=` padding (ASCII 61). This models the
`Base64` helper used by `byteArray.MarshalText`. -/
def encB64 : List Nat → List Nat
  | [] => []
  | [b1] => [encodeChar (b1 / 4), encodeChar (b1 % 4 * 16), 61, 61]
  | [b1, b2] =>
      [encodeChar (b1 / 4), encodeChar (b1 % 4 * 16 + b2 / 16),
       encodeChar (b2 % 16 * 4), 61]
  | b1 :: b2 :: b3 :: rest =>
      encodeChar (b1 / 4) :: encodeChar (b1 % 4 * 16 + b2 / 16) ::
        encodeChar (b2 % 16 * 4 + b3 / 64) :: encodeChar (b3 % 64) ::
        encB64 rest

/-- The three bytes packed into a full base64 quartet of sextets. -/
def decodeB64Group (n1 n2 n3 n4 : Nat) : List Nat :=
  [n1 * 4 + n2 / 16, n2 % 16 * 16 + n3 / 4, n3 % 4 * 64 + n4]

/-- Modelled from the spec: decoding of the final base64 quartet, which may
carry one or two padding characters. -/
def decodeLastGroup (c1 c2 c3 c4 : Nat) : Except String (List Nat) :=
  match decodeChar c1, decodeChar c2 with
  | some n1, some n2 =>
    if c3 = 61 then
      if c4 = 61 then Except.ok [n1 * 4 + n2 / 16]
      else Except.error "illegal base64 data"
    else
      match decodeChar c3 with
      | some n3 =>
        if c4 = 61 then Except.ok [n1 * 4 + n2 / 16, n2 % 16 * 16 + n3 / 4]
        else
          match decodeChar c4 with
          | some n4 => Except.ok (decodeB64Group n1 n2 n3 n4)
          | none => Except.error "illegal base64 data"
      | none => Except.error "illegal base64 data"
  | _, _ => Except.error "illegal base64 data"

/-- Modelled from the spec: standard base64 decoding of a list of ASCII
codes; fails on input whose length is not a multiple of four, on characters
outside the alphabet, and on misplaced padding. This models the
`decodeBase64` helper used by `byteArray.UnmarshalText`. -/
def decodeB64 : List Nat → Except String (List Nat)
  | [] => Except.ok []
  | [_] => Except.error "illegal base64 data"
  | [_, _] => Except.error "illegal base64 data"
  | [_, _, _] => Except.error "illegal base64 data"
  | c1 :: c2 :: c3 :: c4 :: rest =>
    match rest with
    | [] => decodeLastGroup c1 c2 c3 c4
    | r :: rs =>
      match decodeChar c1, decodeChar c2, decodeChar c3, decodeChar c4,
            decodeB64 (r :: rs) with
      | some n1, some n2, some n3, some n4, Except.ok bs =>
          Except.ok (decodeB64Group n1 n2 n3 n4 ++ bs)
      | _, _, _, _, _ => Except.error "illegal base64 data"

theorem decodeChar_encodeChar_fin :
    ∀ n : Fin 64, decodeChar (encodeChar n.val) = some n.val := by decide

theorem encodeChar_ne_pad_fin : ∀ n : Fin 64, encodeChar n.val ≠ 61 := by decide

theorem decodeChar_encodeChar {n : Nat} (h : n < 64) :
    decodeChar (encodeChar n) = some n :=
  decodeChar_encodeChar_fin ⟨n, h⟩

theorem encodeChar_ne_pad {n : Nat} (h : n < 64) : encodeChar n ≠ 61 :=
  encodeChar_ne_pad_fin ⟨n, h⟩

theorem encB64_ne_nil (b : Nat) (rest : List Nat) : encB64 (b :: rest) ≠ [] := by
  match rest with
  | [] => simp [encB64]
  | [b2] => simp [encB64]
  | b2 :: b3 :: r => simp [encB64]

/-- Round-trip of the base64 codec on valid byte strings. -/
theorem decodeB64_encB64 : ∀ bs : List Nat, validBytes bs →
    decodeB64 (encB64 bs) = Except.ok bs
  | [], _ => rfl
  | [b1], h => by
    have hb1 : b1 < 256 := h b1 (by simp)
    have d1 := decodeChar_encodeChar (show b1 / 4 < 64 by omega)
    have d2 := decodeChar_encodeChar (show b1 % 4 * 16 < 64 by omega)
    simp only [encB64, decodeB64, decodeLastGroup, d1, d2, ite_true,
      eq_self_iff_true, Except.ok.injEq, List.cons.injEq, and_true]
    omega
  | [b1, b2], h => by
    have hb1 : b1 < 256 := h b1 (by simp)
    have hb2 : b2 < 256 := h b2 (by simp)
    have d1 := decodeChar_encodeChar (show b1 / 4 < 64 by omega)
    have d2 := decodeChar_encodeChar (show b1 % 4 * 16 + b2 / 16 < 64 by omega)
    have d3 := decodeChar_encodeChar (show b2 % 16 * 4 < 64 by omega)
    have n3 := eq_false (encodeChar_ne_pad (show b2 % 16 * 4 < 64 by omega))
    simp only [encB64, decodeB64, decodeLastGroup, d1, d2, d3, n3, ite_false,
      ite_true, eq_self_iff_true, Except.ok.injEq, List.cons.injEq, and_true]
    omega
  | [b1, b2, b3], h => by
    have hb1 : b1 < 256 := h b1 (by simp)
    have hb2 : b2 < 256 := h b2 (by simp)
    have hb3 : b3 < 256 := h b3 (by simp)
    have d1 := decodeChar_encodeChar (show b1 / 4 < 64 by omega)
    have d2 := decodeChar_encodeChar (show b1 % 4 * 16 + b2 / 16 < 64 by omega)
    have d3 := decodeChar_encodeChar (show b2 % 16 * 4 + b3 / 64 < 64 by omega)
    have d4 := decodeChar_encodeChar (show b3 % 64 < 64 by omega)
    have n3 := eq_false (encodeChar_ne_pad (show b2 % 16 * 4 + b3 / 64 < 64 by omega))
    have n4 := eq_false (encodeChar_ne_pad (show b3 % 64 < 64 by omega))
    simp only [encB64, decodeB64, decodeLastGroup, decodeB64Group, d1, d2, d3,
      d4, n3, n4, ite_false, ite_true, eq_self_iff_true, Except.ok.injEq,
      List.cons.injEq, and_true]
    omega
  | b1 :: b2 :: b3 :: b :: rest, h => by
    have hb1 : b1 < 256 := h b1 (by simp)
    have hb2 : b2 < 256 := h b2 (by simp)
    have hb3 : b3 < 256 := h b3 (by simp)
    have d1 := decodeChar_encodeChar (show b1 / 4 < 64 by omega)
    have d2 := decodeChar_encodeChar (show b1 % 4 * 16 + b2 / 16 < 64 by omega)
    have d3 := decodeChar_encodeChar (show b2 % 16 * 4 + b3 / 64 < 64 by omega)
    have d4 := decodeChar_encodeChar (show b3 % 64 < 64 by omega)
    have ih : decodeB64 (encB64 (b :: rest)) = Except.ok (b :: rest) :=
      decodeB64_encB64 (b :: rest) (fun x hx => h x (by simp only [List.mem_cons] at hx ⊢; tauto))
    obtain ⟨x, xs, hx⟩ := List.exists_cons_of_ne_nil (encB64_ne_nil b rest)
    rw [hx] at ih
    simp only [encB64, hx, decodeB64, d1, d2, d3, d4, ih, decodeB64Group,
      List.cons_append, List.nil_append, Except.ok.injEq, List.cons.injEq,
      and_true]
    omega

theorem encB64_inj {a b : List Nat} (ha : validBytes a) (hb : validBytes b)
    (h : encB64 a = encB64 b) : a = b := by
  have h1 := decodeB64_encB64 a ha
  rw [h, decodeB64_encB64 b hb] at h1
  exact (Except.ok.inj h1).symm

/-- The byteArray wrapper of the encoding package, from types.go. In Go the
wrapped value is a string, that is, an immutable byte sequence. -/
structure byteArray where
  data : List Nat
deriving DecidableEq

/-- Embeds byteArray.MarshalText from types.go: it renders the wrapped bytes
as base64 text and returns a nil error unconditionally. -/
def byteArray.marshalText (ba : byteArray) : Except String (List Nat) :=
  Except.ok (encB64 ba.data)

/-- Embeds byteArray.UnmarshalText from types.go: it base64-decodes the
text, returning the underlying decoding error unchanged on failure, and on
success replaces the receiver wholesale with the decoded bytes. -/
def byteArray.unmarshalText (ba : byteArray) (text : List Nat) :
    Except String byteArray :=
  match decodeB64 text with
  | Except.error e => Except.error e
  | Except.ok bs => Except.ok ⟨bs⟩

/-- Lexicographic comparison of byte lists, used for the deterministic
ordering of serialized byte-keyed map entries. -/
def listLe : List Nat → List Nat → Bool
  | [], _ => true
  | _ :: _, [] => false
  | a :: as, b :: bs => if a < b then true else if b < a then false else listLe as bs

theorem listLe_total : ∀ a b : List Nat, listLe a b = true ∨ listLe b a = true
  | [], _ => Or.inl rfl
  | _ :: _, [] => Or.inr rfl
  | a :: as, b :: bs => by
    by_cases h1 : a < b
    · left; simp [listLe, h1]
    · by_cases h2 : b < a
      · right; simp [listLe, h2]
      · have hab : a = b := by omega
        subst hab
        rcases listLe_total as bs with h | h
        · left; simp [listLe, h1, h]
        · right; simp [listLe, h1, h]

theorem listLe_antisymm : ∀ a b : List Nat,
    listLe a b = true → listLe b a = true → a = b
  | [], [], _, _ => rfl
  | [], _ :: _, _, h2 => by simp [listLe] at h2
  | _ :: _, [], h1, _ => by simp [listLe] at h1
  | a :: as, b :: bs, h1, h2 => by
    by_cases hab : a < b
    · have hba : ¬ b < a := by omega
      simp [listLe, hab, hba] at h2
    · by_cases hba : b < a
      · simp [listLe, hab, hba] at h1
      · have heq : a = b := by omega
        subst heq
        have h1' : listLe as bs = true := by simpa [listLe, hab] using h1
        have h2' : listLe bs as = true := by simpa [listLe, hab] using h2
        rw [listLe_antisymm as bs h1' h2']

theorem listLe_trans : ∀ a b c : List Nat,
    listLe a b = true → listLe b c = true → listLe a c = true
  | [], _, _, _, _ => rfl
  | _ :: _, [], _, h1, _ => by simp [listLe] at h1
  | _ :: _, _ :: _, [], _, h2 => by simp [listLe] at h2
  | a :: as, b :: bs, c :: cs, h1, h2 => by
    by_cases hab : a < b <;> by_cases hbc : b < c
    · simp [listLe, show a < c by omega]
    · by_cases hcb : c < b
      · simp [listLe, hbc, hcb] at h2
      · have : b = c := by omega
        subst this
        simp [listLe, hab]
    · by_cases hba : b < a
      · simp [listLe, hab, hba] at h1
      · have : a = b := by omega
        subst this
        simp [listLe, hbc]
    · by_cases hba : b < a
      · simp [listLe, hab, hba] at h1
      · by_cases hcb : c < b
        · simp [listLe, hbc, hcb] at h2
        · have hab2 : a = b := by omega
          have hbc2 : b = c := by omega
          subst hab2; subst hbc2
          have h1' : listLe as bs = true := by simpa [listLe, hab] using h1
          have h2' : listLe bs cs = true := by simpa [listLe, hab] using h2
          simp [listLe, hab, listLe_trans as bs cs h1' h2']

/-- Ordering of raw map entries by the base64 text form of their keys, the
order in which the codec serializes byte-keyed map entries. -/
def rawKvLe (p q : List Nat × List Nat) : Prop :=
  listLe (encB64 p.1) (encB64 q.1) = true

instance : DecidableRel rawKvLe := fun p q =>
  inferInstanceAs (Decidable (listLe (encB64 p.1) (encB64 q.1) = true))

instance : IsTotal (List Nat × List Nat) rawKvLe :=
  ⟨fun p q => listLe_total (encB64 p.1) (encB64 q.1)⟩

instance : IsTrans (List Nat × List Nat) rawKvLe :=
  ⟨fun _ _ _ h1 h2 => listLe_trans _ _ _ h1 h2⟩

/-- Modelled from the spec: the canonical serialization order of byte-keyed
map entries, lexicographic on the base64 text form of the key, independent
of the in-memory enumeration order. -/
def sortDelta (l : List (List Nat × List Nat)) : List (List Nat × List Nat) :=
  List.insertionSort rawKvLe l

/-- Modelled from the spec: a representative Ledger Record with a digest
field, an arbitrary byte-string field, and a byte-keyed map with byte-string
values, such as a state delta. The record-level codec of the encoding
package is not part of the provided sources. The in-memory map is carried as
an association list whose order is the construction order. -/
structure LedgerRecord where
  digest : List Nat
  payload : List Nat
  delta : List (List Nat × List Nat)
deriving DecidableEq

/-- Modelled from the spec: the Persisted Form of a Ledger Record; every
binary field is replaced by its base64 text override, and the byte-keyed map
becomes a list of base64-keyed entries in deterministic sorted order. -/
structure PersistedRecord where
  digest : List Nat
  payload : List Nat
  delta : List (List Nat × List Nat)
deriving DecidableEq

/-- A Ledger Record all of whose byte strings are valid bytes. -/
def validRecord (x : LedgerRecord) : Prop :=
  validBytes x.digest ∧ validBytes x.payload ∧
    ∀ kv ∈ x.delta, validBytes kv.1 ∧ validBytes kv.2

instance : DecidablePred validRecord := fun x => by
  unfold validRecord; infer_instance

/-- Base64 text overrides for every entry of a byte-keyed map. -/
def encEntries : List (List Nat × List Nat) → List (List Nat × List Nat)
  | [] => []
  | (k, v) :: rest => (encB64 k, encB64 v) :: encEntries rest

theorem encEntries_eq_map (l : List (List Nat × List Nat)) :
    encEntries l = l.map fun kv => (encB64 kv.1, encB64 kv.2) := by
  induction l with
  | nil => rfl
  | cons kv rest ih => cases kv; simp [encEntries, ih]

/-- Modelled from the spec: encode of the representative Ledger Record; all
binary fields become base64 overrides and the byte-keyed map is emitted in
canonical sorted order. -/
def recordEncode (x : LedgerRecord) : PersistedRecord :=
  ⟨encB64 x.digest, encB64 x.payload, encEntries (sortDelta x.delta)⟩

/-- Decode of the persisted entries of a byte-keyed map; any malformed key
or value makes the whole decode fail. -/
def decodeEntries : List (List Nat × List Nat) →
    Except String (List (List Nat × List Nat))
  | [] => Except.ok []
  | (kt, vt) :: rest =>
    match decodeB64 kt, decodeB64 vt, decodeEntries rest with
    | Except.ok k, Except.ok v, Except.ok r => Except.ok ((k, v) :: r)
    | _, _, _ => Except.error "illegal base64 data"

/-- Modelled from the spec: decode of the Persisted Form of the
representative Ledger Record; it consumes the override representation of
every binary field and fails on any malformed field. -/
def recordDecode (p : PersistedRecord) : Except String LedgerRecord :=
  match decodeB64 p.digest, decodeB64 p.payload, decodeEntries p.delta with
  | Except.ok d, Except.ok pl, Except.ok es => Except.ok ⟨d, pl, es⟩
  | _, _, _ => Except.error "illegal base64 data"

theorem decodeEntries_encEntries : ∀ l : List (List Nat × List Nat),
    (∀ kv ∈ l, validBytes kv.1 ∧ validBytes kv.2) →
    decodeEntries (encEntries l) = Except.ok l
  | [], _ => rfl
  | (k, v) :: rest, h => by
    have hk := (h (k, v) (by simp)).1
    have hv := (h (k, v) (by simp)).2
    have ih := decodeEntries_encEntries rest (fun kv hkv => h kv (by simp [hkv]))
    simp only [encEntries, decodeEntries, decodeB64_encB64 k hk,
      decodeB64_encB64 v hv, ih]

/-- Two sorted entry lists that are permutations of each other and have
distinct keys are equal; distinctness is needed because the order compares
keys only. -/
theorem sorted_perm_eq_of_nodup_keys :
    ∀ l1 l2 : List (List Nat × List Nat), l1.Perm l2 →
      List.Sorted rawKvLe l1 → List.Sorted rawKvLe l2 →
      (l1.map Prod.fst).Nodup →
      (∀ kv ∈ l1, validBytes kv.1) →
      l1 = l2
  | [], _, hp, _, _, _, _ => hp.nil_eq
  | a :: t1, l2, hp, hs1, hs2, hnd, hv => by
    cases l2 with
    | nil => exact absurd hp.eq_nil (by simp)
    | cons b t2 =>
      have hb : b ∈ a :: t1 := hp.symm.subset (by simp)
      have ha : a ∈ b :: t2 := hp.subset (by simp)
      have hab : a = b := by
        rcases List.mem_cons.mp hb with h | hbt1
        · exact h.symm
        rcases List.mem_cons.mp ha with h | hat2
        · exact h
        have hle1 : rawKvLe a b := (List.sorted_cons.mp hs1).1 b hbt1
        have hle2 : rawKvLe b a := (List.sorted_cons.mp hs2).1 a hat2
        have hkeys : encB64 a.1 = encB64 b.1 := listLe_antisymm _ _ hle1 hle2
        have hkey : a.1 = b.1 :=
          encB64_inj (hv a (by simp)) (hv b hb) hkeys
        exfalso
        exact (List.nodup_cons.mp hnd).1
          (by rw [hkey]; exact List.mem_map_of_mem Prod.fst hbt1)
      subst hab
      have ht : t1.Perm t2 := hp.cons_inv
      have := sorted_perm_eq_of_nodup_keys t1 t2 ht (List.sorted_cons.mp hs1).2
        (List.sorted_cons.mp hs2).2 (List.nodup_cons.mp hnd).2
        (fun kv hkv => hv kv (by simp [hkv]))
      rw [this]

/-- C1: decoding the encoding of any valid Ledger Record yields the record
back — the binary fields are reconstructed exactly and the byte-keyed map is
recovered as the same finite map (the persisted order is canonical, so it is
reproduced verbatim whenever the in-memory map is already in canonical
order); in particular, for every byteArray value, UnmarshalText applied to
the output of MarshalText succeeds and reconstructs the value exactly. -/
theorem record_codec_roundtrip :
    (∀ x : LedgerRecord, validRecord x →
      recordDecode (recordEncode x) =
        Except.ok ⟨x.digest, x.payload, sortDelta x.delta⟩ ∧
      (sortDelta x.delta).Perm x.delta ∧
      (List.Sorted rawKvLe x.delta →
        recordDecode (recordEncode x) = Except.ok x)) ∧
    (∀ ba ba0 : byteArray, validBytes ba.data →
      ∃ text, byteArray.marshalText ba = Except.ok text ∧
        byteArray.unmarshalText ba0 text = Except.ok ba) := by
  constructor
  · intro x hx
    obtain ⟨hd, hp, hδ⟩ := hx
    have hsv : ∀ kv ∈ sortDelta x.delta, validBytes kv.1 ∧ validBytes kv.2 :=
      fun kv hkv => hδ kv ((List.perm_insertionSort rawKvLe x.delta).subset hkv)
    have hde := decodeEntries_encEntries (sortDelta x.delta) hsv
    refine ⟨?_, List.perm_insertionSort rawKvLe x.delta, ?_⟩
    · simp only [recordEncode, recordDecode, decodeB64_encB64 x.digest hd,
        decodeB64_encB64 x.payload hp, hde]
    · intro hs
      have hid : sortDelta x.delta = x.delta := hs.insertionSort_eq
      rw [hid] at hde
      simp only [recordEncode, hid, recordDecode, decodeB64_encB64 x.digest hd,
        decodeB64_encB64 x.payload hp, hde]
  · intro ba ba0 hba
    refine ⟨encB64 ba.data, rfl, ?_⟩
    simp only [byteArray.unmarshalText, decodeB64_encB64 ba.data hba]

theorem record_codec_roundtrip_witness :
    validRecord ⟨[0, 255], [], [([1, 2], [5]), ([1], [6])]⟩ ∧
    validBytes ([255, 254] : List Nat) ∧
    (∃ text, byteArray.marshalText ⟨[255, 254]⟩ = Except.ok text ∧
      byteArray.unmarshalText ⟨[9]⟩ text = Except.ok ⟨[255, 254]⟩) ∧
    recordDecode (recordEncode ⟨[0, 255], [], [([1, 2], [5]), ([1], [6])]⟩) =
      Except.ok ⟨[0, 255], [], sortDelta [([1, 2], [5]), ([1], [6])]⟩ :=
  ⟨by decide, by decide,
   record_codec_roundtrip.2 ⟨[255, 254]⟩ ⟨[9]⟩ (by decide),
   (record_codec_roundtrip.1 ⟨[0, 255], [], [([1, 2], [5]), ([1], [6])]⟩
     (by decide)).1⟩

/-- C2: encode is deterministic — two structurally equal records, even when
their byte-keyed maps were built in different construction orders, produce
identical persisted forms, and the serialized map entries are ordered
lexicographically by the base64 text form of their keys, independent of the
in-memory enumeration order. -/
theorem encode_deterministic (x1 x2 : LedgerRecord)
    (hdig : x1.digest = x2.digest) (hpay : x1.payload = x2.payload)
    (hperm : x1.delta.Perm x2.delta)
    (hnd : (x1.delta.map Prod.fst).Nodup)
    (hv : ∀ kv ∈ x1.delta, validBytes kv.1) :
    recordEncode x1 = recordEncode x2 ∧
      List.Pairwise (fun a b : List Nat × List Nat => listLe a.1 b.1 = true)
        (recordEncode x1).delta := by
  have hsort : sortDelta x1.delta = sortDelta x2.delta := by
    apply sorted_perm_eq_of_nodup_keys
    · exact ((List.perm_insertionSort rawKvLe x1.delta).trans hperm).trans
        (List.perm_insertionSort rawKvLe x2.delta).symm
    · exact List.sorted_insertionSort rawKvLe x1.delta
    · exact List.sorted_insertionSort rawKvLe x2.delta
    · exact (((List.perm_insertionSort rawKvLe x1.delta).map
        Prod.fst).nodup_iff).mpr hnd
    · exact fun kv hkv =>
        hv kv ((List.perm_insertionSort rawKvLe x1.delta).subset hkv)
  constructor
  · simp only [recordEncode, hdig, hpay, hsort]
  · have : (recordEncode x1).delta = encEntries (sortDelta x1.delta) := rfl
    rw [this, encEntries_eq_map]
    exact List.Pairwise.map _ (fun a b h => h)
      (List.sorted_insertionSort rawKvLe x1.delta)

theorem encode_deterministic_witness :
    recordEncode ⟨[7], [8], [([1], [2]), ([0], [3])]⟩ =
      recordEncode ⟨[7], [8], [([0], [3]), ([1], [2])]⟩ ∧
    List.Pairwise (fun a b : List Nat × List Nat => listLe a.1 b.1 = true)
      (recordEncode ⟨[7], [8], [([1], [2]), ([0], [3])]⟩).delta :=
  encode_deterministic ⟨[7], [8], [([1], [2]), ([0], [3])]⟩
    ⟨[7], [8], [([0], [3]), ([1], [2])]⟩ rfl rfl
    (List.Perm.swap ([0], [3]) ([1], [2]) []) (by decide) (by decide)

theorem decodeEntries_error_of_mem :
    ∀ (l : List (List Nat × List Nat)) (kv : List Nat × List Nat), kv ∈ l →
    ((∃ e, decodeB64 kv.1 = Except.error e) ∨
      (∃ e, decodeB64 kv.2 = Except.error e)) →
    ∃ e, decodeEntries l = Except.error e
  | [], _, hm, _ => absurd hm (by simp)
  | (kt, vt) :: rest, kv, hm, hbad => by
    rcases List.mem_cons.mp hm with heq | htail
    · subst heq
      rcases hbad with ⟨e, he⟩ | ⟨e, he⟩
      · cases h2 : decodeB64 vt <;> cases h3 : decodeEntries rest <;>
          simp [decodeEntries, he, h2, h3]
      · cases h1 : decodeB64 kt <;> cases h3 : decodeEntries rest <;>
          simp [decodeEntries, h1, he, h3]
    · obtain ⟨e, he⟩ := decodeEntries_error_of_mem rest kv htail hbad
      cases h1 : decodeB64 kt <;> cases h2 : decodeB64 vt <;>
        simp [decodeEntries, h1, h2, he]

/-- C7: decode never returns a silently-defaulted record — UnmarshalText
surfaces the underlying base64-decoding error unchanged, record decode fails
whenever any override field or any byte-keyed map entry carries malformed
base64, and a successful UnmarshalText carries exactly the base64-decoded
bytes of the input. -/
theorem decode_error_surfaced :
    (∀ (ba : byteArray) (text : List Nat) (e : String),
      decodeB64 text = Except.error e →
      byteArray.unmarshalText ba text = Except.error e) ∧
    (∀ p : PersistedRecord,
      ((∃ e, decodeB64 p.digest = Except.error e) ∨
        (∃ e, decodeB64 p.payload = Except.error e) ∨
        (∃ kv ∈ p.delta, (∃ e, decodeB64 kv.1 = Except.error e) ∨
          (∃ e, decodeB64 kv.2 = Except.error e))) →
      ∃ e, recordDecode p = Except.error e) ∧
    (∀ (ba : byteArray) (text : List Nat) (r : byteArray),
      byteArray.unmarshalText ba text = Except.ok r →
      decodeB64 text = Except.ok r.data) := by
  refine ⟨?_, ?_, ?_⟩
  · intro ba text e h
    simp only [byteArray.unmarshalText, h]
  · intro p hbad
    rcases hbad with ⟨e, he⟩ | ⟨e, he⟩ | ⟨kv, hkv, hbad⟩
    · cases h2 : decodeB64 p.payload <;> cases h3 : decodeEntries p.delta <;>
        simp [recordDecode, he, h2, h3]
    · cases h1 : decodeB64 p.digest <;> cases h3 : decodeEntries p.delta <;>
        simp [recordDecode, h1, he, h3]
    · obtain ⟨e, he⟩ := decodeEntries_error_of_mem p.delta kv hkv hbad
      cases h1 : decodeB64 p.digest <;> cases h2 : decodeB64 p.payload <;>
        simp [recordDecode, h1, h2, he]
  · intro ba text r h
    unfold byteArray.unmarshalText at h
    cases hd : decodeB64 text with
    | error e => rw [hd] at h; exact absurd h (by simp)
    | ok bs =>
      rw [hd] at h
      simp only [Except.ok.injEq] at h
      rw [← h]

theorem decode_error_surfaced_witness :
    decodeB64 [33] = Except.error "illegal base64 data" ∧
    byteArray.unmarshalText ⟨[1]⟩ [33] = Except.error "illegal base64 data" ∧
    (∃ e, recordDecode ⟨[33], [], []⟩ = Except.error e) :=
  ⟨rfl, decode_error_surfaced.1 ⟨[1]⟩ [33] "illegal base64 data" rfl,
   decode_error_surfaced.2.1 ⟨[33], [], []⟩ (Or.inl ⟨"illegal base64 data", rfl⟩)⟩

/-- C8: encode is total — MarshalText returns a nil error for every
byteArray value, including the empty byte string and arbitrary non-UTF-8
contents, and the record encoder is a total function populating the base64
override of every field. -/
theorem encode_total :
    (∀ ba : byteArray, byteArray.marshalText ba = Except.ok (encB64 ba.data)) ∧
    (∀ x : LedgerRecord, recordEncode x =
      ⟨encB64 x.digest, encB64 x.payload, encEntries (sortDelta x.delta)⟩) :=
  ⟨fun _ => rfl, fun _ => rfl⟩

/-- C10: the result of UnmarshalText is independent of the receiver prior
contents — any successful call replaces the receiver entirely with the
base64-decoded bytes of the input, preserved byte for byte. -/
theorem unmarshalText_receiver_independent
    (ba1 ba2 : byteArray) (text : List Nat) (r : byteArray)
    (h : byteArray.unmarshalText ba1 text = Except.ok r) :
    byteArray.unmarshalText ba2 text = Except.ok r ∧
      decodeB64 text = Except.ok r.data := by
  unfold byteArray.unmarshalText at h ⊢
  cases hd : decodeB64 text with
  | error e => rw [hd] at h; exact absurd h (by simp)
  | ok bs =>
    rw [hd] at h
    simp only [Except.ok.injEq] at h
    rw [← h]
    exact ⟨rfl, rfl⟩

theorem unmarshalText_receiver_independent_witness :
    byteArray.unmarshalText ⟨[9, 9]⟩ [47, 119, 65, 61] = Except.ok ⟨[255, 0]⟩ ∧
      decodeB64 [47, 119, 65, 61] = Except.ok [255, 0] :=
  unmarshalText_receiver_independent ⟨[]⟩ ⟨[9, 9]⟩ [47, 119, 65, 61]
    ⟨[255, 0]⟩ rfl

/-- Modelled from the spec: a transaction summary as the clear migration
needs it — its round, the account it affects, and whether it mutates that
account auth or participation state (a rekey or a key registration). -/
structure Txn where
  round : Nat
  addr : Nat
  mutating : Bool
deriving DecidableEq

/-- Modelled from the spec: a row of the account table together with its
derived fields. -/
structure AccountRow where
  addr : Nat
  deleted : Bool
  closedAt : Option Nat
  authAddr : Option Nat
  participation : Option Nat
  online : Bool
deriving DecidableEq

theorem le_foldr_max : ∀ (l : List Nat) (x : Nat), x ∈ l → x ≤ l.foldr max 0
  | [], x, hx => absurd hx (by simp)
  | a :: t, x, hx => by
    rcases List.mem_cons.mp hx with h | h
    · subst h; exact le_max_left _ _
    · exact le_trans (le_foldr_max t x h) (le_max_right _ _)

/-- Modelled from the spec: the greatest round among mutating transactions
affecting an address; zero when there is none. -/
def lastMutatingRound (txns : List Txn) (addr : Nat) : Nat :=
  ((txns.filter fun t => t.addr == addr && t.mutating).map Txn.round).foldr max 0

/-- Clearing the derived fields of an account row: auth addr and
participation become absent and the derived status becomes offline. -/
def clearedOf (a : AccountRow) : AccountRow :=
  { a with authAddr := none, participation := none, online := false }

/-- Modelled from the spec: the per-account step of the stale derived data
clear migration — a deleted account is cleared unconditionally; an account
with closed_at set is cleared exactly when the closure is at least as recent
as the last mutating round; any other account is left untouched. -/
def clearAccountStep (txns : List Txn) (a : AccountRow) : AccountRow :=
  if a.deleted then clearedOf a
  else
    match a.closedAt with
    | none => a
    | some r => if lastMutatingRound txns a.addr ≤ r then clearedOf a else a

/-- Modelled from the spec: ClearAccountDataMigration applies the clear step
to every account row; the implementation is not part of the provided
sources, only its integration tests are. -/
def ClearAccountDataMigration (txns : List Txn) (table : List AccountRow) :
    List AccountRow :=
  table.map (clearAccountStep txns)

theorem le_lastMutatingRound {txns : List Txn} {addr : Nat} {t : Txn}
    (ht : t ∈ txns) (haddr : t.addr = addr) (hm : t.mutating = true) :
    t.round ≤ lastMutatingRound txns addr :=
  le_foldr_max _ t.round
    (List.mem_map_of_mem Txn.round
      (List.mem_filter.mpr ⟨ht, by simp [haddr, hm]⟩))

/-- C3: for a non-deleted account with closed_at set, the clear migration
clears auth addr and participation and marks the account offline exactly
when closed_at is at least the last mutating round (an equality tie clears),
and leaves the row entirely untouched whenever some mutating transaction of
that account sits at a round strictly greater than closed_at. -/
theorem clearMigration_condition (txns : List Txn) (a : AccountRow) (r : Nat)
    (hdel : a.deleted = false) (hclosed : a.closedAt = some r) :
    (lastMutatingRound txns a.addr ≤ r →
      clearAccountStep txns a = clearedOf a) ∧
    (r < lastMutatingRound txns a.addr → clearAccountStep txns a = a) ∧
    (∀ t ∈ txns, t.addr = a.addr → t.mutating = true → r < t.round →
      clearAccountStep txns a = a) ∧
    ClearAccountDataMigration txns [a] = [clearAccountStep txns a] := by
  refine ⟨?_, ?_, ?_, rfl⟩
  · intro h; simp [clearAccountStep, hdel, hclosed, h]
  · intro h; simp [clearAccountStep, hdel, hclosed, Nat.not_le.mpr h]
  · intro t ht haddr hm hr
    have hle := le_lastMutatingRound ht haddr hm
    have hlt : r < lastMutatingRound txns a.addr := lt_of_lt_of_le hr hle
    simp [clearAccountStep, hdel, hclosed, Nat.not_le.mpr hlt]

theorem clearMigration_condition_witness :
    (lastMutatingRound [⟨1, 0, true⟩] 0 ≤ 2 →
      clearAccountStep [⟨1, 0, true⟩] ⟨0, false, some 2, some 5, some 7, true⟩ =
        clearedOf ⟨0, false, some 2, some 5, some 7, true⟩) ∧
    (2 < lastMutatingRound [⟨1, 0, true⟩] 0 →
      clearAccountStep [⟨1, 0, true⟩] ⟨0, false, some 2, some 5, some 7, true⟩ =
        ⟨0, false, some 2, some 5, some 7, true⟩) ∧
    (∀ t ∈ [(⟨1, 0, true⟩ : Txn)], t.addr = 0 → t.mutating = true →
      2 < t.round →
      clearAccountStep [⟨1, 0, true⟩] ⟨0, false, some 2, some 5, some 7, true⟩ =
        ⟨0, false, some 2, some 5, some 7, true⟩) ∧
    ClearAccountDataMigration [⟨1, 0, true⟩]
        [⟨0, false, some 2, some 5, some 7, true⟩] =
      [clearAccountStep [⟨1, 0, true⟩] ⟨0, false, some 2, some 5, some 7, true⟩] :=
  clearMigration_condition [⟨1, 0, true⟩]
    ⟨0, false, some 2, some 5, some 7, true⟩ 2 rfl rfl

/-- C9: a deleted account is cleared unconditionally by the migration —
regardless of closed_at and of any later mutating transactions, its auth
addr and participation read as absent afterwards. -/
theorem clearMigration_deleted (txns : List Txn) (a : AccountRow)
    (hdel : a.deleted = true) :
    (clearAccountStep txns a).authAddr = none ∧
      (clearAccountStep txns a).participation = none ∧
      clearAccountStep txns a = clearedOf a := by
  simp [clearAccountStep, hdel, clearedOf]

theorem clearMigration_deleted_witness :
    (clearAccountStep [⟨10, 3, true⟩]
        ⟨3, true, some 1, some 4, some 5, true⟩).authAddr = none ∧
    (clearAccountStep [⟨10, 3, true⟩]
        ⟨3, true, some 1, some 4, some 5, true⟩).participation = none ∧
    clearAccountStep [⟨10, 3, true⟩] ⟨3, true, some 1, some 4, some 5, true⟩ =
      clearedOf ⟨3, true, some 1, some 4, some 5, true⟩ :=
  clearMigration_deleted [⟨10, 3, true⟩]
    ⟨3, true, some 1, some 4, some 5, true⟩ rfl

/-- Modelled from the spec: an asset freeze transaction, with its id, the
sender who authorizes the freeze, and the target address whose asset is
frozen. -/
structure FreezeTxn where
  txid : Nat
  sender : Nat
  faddr : Nat
deriving DecidableEq

/-- Modelled from the spec: the participating addresses of an asset freeze
transaction — only the freeze target address. -/
def freezeParticipants (t : FreezeTxn) : List Nat := [t.faddr]

/-- Deleting the index entries of a given transaction that reference a
non-participating address, leaving entries of other transactions alone. -/
def cleanIndex (t : FreezeTxn) (index : List (Nat × Nat)) : List (Nat × Nat) :=
  index.filter fun e => decide (e.2 ≠ t.txid ∨ e.1 ∈ freezeParticipants t)

/-- Modelled from the spec: the differential participation repair for one
freeze transaction — delete entries of this transaction naming a
non-participating address and insert any missing entry for a true
participant, scoped to this transaction id. -/
def repairFreezeTxn (t : FreezeTxn) (index : List (Nat × Nat)) :
    List (Nat × Nat) :=
  (freezeParticipants t).foldr
    (fun p acc => if (p, t.txid) ∈ acc then acc else (p, t.txid) :: acc)
    (cleanIndex t index)

/-- Modelled from the spec: FixFreezeLookupMigration repairs the
participation index for every freeze transaction; the implementation is not
part of the provided sources, only its integration test is. -/
def FixFreezeLookupMigration (txns : List FreezeTxn)
    (index : List (Nat × Nat)) : List (Nat × Nat) :=
  txns.foldl (fun idx t => repairFreezeTxn t idx) index

/-- C4: for an asset freeze transaction whose index entries are wrong or
missing (at most one correct row present, including a fully truncated
index), the repair migration leaves exactly one participation row for the
freeze target and none for the sender under that transaction id, and
preserves the multiset of entries of every other transaction exactly. -/
theorem fixFreeze_repair (t : FreezeTxn) (index : List (Nat × Nat))
    (hne : t.sender ≠ t.faddr)
    (hcount : index.count (t.faddr, t.txid) ≤ 1) :
    (FixFreezeLookupMigration [t] index).count (t.faddr, t.txid) = 1 ∧
    (FixFreezeLookupMigration [t] index).count (t.sender, t.txid) = 0 ∧
    (∀ e : Nat × Nat, e.2 ≠ t.txid →
      (FixFreezeLookupMigration [t] index).count e = index.count e) := by
  have hmig : FixFreezeLookupMigration [t] index =
      (if (t.faddr, t.txid) ∈ cleanIndex t index then cleanIndex t index
       else (t.faddr, t.txid) :: cleanIndex t index) := rfl
  have hcF : (cleanIndex t index).count (t.faddr, t.txid) =
      index.count (t.faddr, t.txid) := by
    apply List.count_filter
    simp [freezeParticipants]
  have hcS : (cleanIndex t index).count (t.sender, t.txid) = 0 := by
    apply List.count_eq_zero_of_not_mem
    intro hmem
    have hp := (List.mem_filter.mp hmem).2
    simp [freezeParticipants] at hp
    exact hne hp
  have hcO : ∀ e : Nat × Nat, e.2 ≠ t.txid →
      (cleanIndex t index).count e = index.count e := by
    intro e he
    apply List.count_filter
    simp [he]
  rw [hmig]
  by_cases hmem : ((t.faddr, t.txid) : Nat × Nat) ∈ cleanIndex t index
  · rw [if_pos hmem]
    have h1 : 0 < (cleanIndex t index).count (t.faddr, t.txid) :=
      List.count_pos_iff.mpr hmem
    exact ⟨by omega, hcS, hcO⟩
  · rw [if_neg hmem]
    have hc0 : (cleanIndex t index).count (t.faddr, t.txid) = 0 :=
      List.count_eq_zero_of_not_mem hmem
    refine ⟨?_, ?_, ?_⟩
    · rw [List.count_cons]; simp [hc0]
    · rw [List.count_cons, hcS]
      simp [Ne.symm hne]
    · intro e he
      rw [List.count_cons, hcO e he]
      have hc : ¬ (t.faddr, t.txid) = e := fun hc => he (by rw [← hc])
      simp [hc]

theorem fixFreeze_repair_witness :
    (FixFreezeLookupMigration [⟨5, 1, 2⟩] []).count (2, 5) = 1 ∧
    (FixFreezeLookupMigration [⟨5, 1, 2⟩] []).count (1, 5) = 0 ∧
    (∀ e : Nat × Nat, e.2 ≠ 5 →
      (FixFreezeLookupMigration [⟨5, 1, 2⟩] []).count e =
        ([] : List (Nat × Nat)).count e) :=
  fixFreeze_repair ⟨5, 1, 2⟩ [] (by decide) (by decide)

/-- Little-endian base-256 rendering of a natural number. -/
def natToBytes (n : Nat) : List Nat :=
  if h : n = 0 then [] else n % 256 :: natToBytes (n / 256)
termination_by n
decreasing_by exact Nat.div_lt_self (Nat.pos_of_ne_zero h) (by norm_num)

/-- The inverse reading of a little-endian base-256 byte string. -/
def bytesToNat (bs : List Nat) : Nat := bs.foldr (fun b acc => b + 256 * acc) 0

theorem validBytes_natToBytes (n : Nat) : validBytes (natToBytes n) := by
  induction n using Nat.strong_induction_on with
  | _ n ih =>
    rw [natToBytes]
    split
    · intro b hb; simp at hb
    · rename_i h
      intro b hb
      rcases List.mem_cons.mp hb with h1 | h1
      · subst h1; omega
      · exact ih (n / 256) (Nat.div_lt_self (Nat.pos_of_ne_zero h) (by norm_num)) b h1

theorem bytesToNat_natToBytes (n : Nat) : bytesToNat (natToBytes n) = n := by
  induction n using Nat.strong_induction_on with
  | _ n ih =>
    rw [natToBytes]
    split
    · rename_i h; simp [bytesToNat, h]
    · rename_i h
      have hrec := ih (n / 256) (Nat.div_lt_self (Nat.pos_of_ne_zero h) (by norm_num))
      simp only [bytesToNat, List.foldr_cons] at hrec ⊢
      rw [hrec]
      omega

/-- The reserved metastate key, the ASCII codes of "migration state". -/
def migrationMetastateKey : List Nat :=
  [109, 105, 103, 114, 97, 116, 105, 111, 110, 32, 115, 116, 97, 116, 101]

/-- Lookup in an association list keyed by byte strings. -/
def lookupKV (k : List Nat) : List (List Nat × List Nat) → Option (List Nat)
  | [] => none
  | (k2, v) :: rest => if k = k2 then some v else lookupKV k rest

/-- Insert or replace a key in an association list. -/
def upsertKV (k v : List Nat) :
    List (List Nat × List Nat) → List (List Nat × List Nat)
  | [] => [(k, v)]
  | (k2, v2) :: rest =>
    if k = k2 then (k, v) :: rest else (k2, v2) :: upsertKV k v rest

theorem lookupKV_upsertKV_self (k v : List Nat) :
    ∀ l, lookupKV k (upsertKV k v l) = some v
  | [] => by simp [upsertKV, lookupKV]
  | (k2, v2) :: rest => by
    by_cases h : k = k2
    · simp [upsertKV, h, lookupKV]
    · simp [upsertKV, h, lookupKV, lookupKV_upsertKV_self k v rest]

/-- The Migration State: the single persisted cursor. -/
structure MigrationState where
  nextMigration : Nat
deriving DecidableEq

/-- The external store, reduced to its generic metastate table: a mapping of
reserved keys to persisted text values. -/
structure Store where
  metastate : List (List Nat × List Nat)
deriving DecidableEq

/-- Modelled from the spec: the metastate accessor read — a missing key is
the first-run bootstrap with next migration zero, a present value is decoded
through the codec, and a decode failure is surfaced. The accessor itself is
not part of the provided sources. -/
def getMigrationState (s : Store) : Except String MigrationState :=
  match lookupKV migrationMetastateKey s.metastate with
  | none => Except.ok ⟨0⟩
  | some text =>
    match decodeB64 text with
    | Except.error e => Except.error e
    | Except.ok bs => Except.ok ⟨bytesToNat bs⟩

/-- Modelled from the spec: the metastate accessor write — the migration
state flows through the codec into the store. -/
def setMigrationState (s : Store) (n : Nat) : Store :=
  ⟨upsertKV migrationMetastateKey (encB64 (natToBytes n)) s.metastate⟩

theorem getMigrationState_setMigrationState (s : Store) (n : Nat) :
    getMigrationState (setMigrationState s n) = Except.ok ⟨n⟩ := by
  unfold getMigrationState setMigrationState
  simp only [lookupKV_upsertKV_self,
    decodeB64_encB64 (natToBytes n) (validBytes_natToBytes n),
    bytesToNat_natToBytes]

/-- Modelled from the spec: running one migration procedure with its number;
on success the cursor is advanced to one past the number within the same
transaction, on failure the error aborts the run. -/
def runMigrationStep (proc : Store → Except String Store) (num : Nat)
    (s : Store) : Except String Store :=
  match proc s with
  | Except.error e => Except.error e
  | Except.ok s2 => Except.ok (setMigrationState s2 (num + 1))

/-- C5: when a migration procedure with number N completes successfully, the
persisted cursor is set to N + 1 in the same step, and re-reading the
Migration State through the accessor — computed from the durable store state
alone, hence also after a process restart — returns exactly the advanced
value. -/
theorem migration_advances_cursor (proc : Store → Except String Store)
    (num : Nat) (s s2 : Store) (h : proc s = Except.ok s2) :
    runMigrationStep proc num s = Except.ok (setMigrationState s2 (num + 1)) ∧
      getMigrationState (setMigrationState s2 (num + 1)) =
        Except.ok ⟨num + 1⟩ := by
  constructor
  · simp only [runMigrationStep, h]
  · exact getMigrationState_setMigrationState s2 (num + 1)

theorem migration_advances_cursor_witness :
    runMigrationStep Except.ok 13 ⟨[]⟩ =
      Except.ok (setMigrationState ⟨[]⟩ 14) ∧
    getMigrationState (setMigrationState ⟨[]⟩ 14) = Except.ok ⟨14⟩ :=
  migration_advances_cursor Except.ok 13 ⟨[]⟩ ⟨[]⟩ rfl

/-- Modelled from the spec: the migration engine loop — every registered
migration whose number is below the cursor is skipped without invoking its
procedure; every other one runs, and on success the cursor advances to its
number plus one inside the same step. -/
def runFrom (reg : List (Nat × (Store → Except String Store))) (s : Store)
    (cur : Nat) : Except String (Store × Nat) :=
  match reg with
  | [] => Except.ok (s, cur)
  | (n, p) :: rest =>
    if n < cur then runFrom rest s cur
    else
      match p s with
      | Except.error e => Except.error e
      | Except.ok s2 => runFrom rest (setMigrationState s2 (n + 1)) (n + 1)

/-- Modelled from the spec: run_pending reads the cursor through the
accessor and runs every outstanding registered migration in order; the
engine implementation is not part of the provided sources. -/
def runPending (reg : List (Nat × (Store → Except String Store)))
    (s : Store) : Except String Store :=
  match getMigrationState s with
  | Except.error e => Except.error e
  | Except.ok st =>
    match runFrom reg s st.nextMigration with
    | Except.error e => Except.error e
    | Except.ok (s2, _) => Except.ok s2

/-- The number of the last registered migration, zero for an empty registry;
for a strictly increasing registry this is the highest number. -/
def lastNum : List (Nat × (Store → Except String Store)) → Nat
  | [] => 0
  | [(n, _)] => n
  | _ :: rest => lastNum rest

theorem lastNum_cons_cons (a b : Nat × (Store → Except String Store))
    (t : List (Nat × (Store → Except String Store))) :
    lastNum (a :: b :: t) = lastNum (b :: t) := rfl

theorem lastNum_mem :
    ∀ reg : List (Nat × (Store → Except String Store)), reg ≠ [] →
      ∃ q ∈ reg, q.1 = lastNum reg
  | [], h => absurd rfl h
  | [(n, p)], _ => ⟨(n, p), by simp, rfl⟩
  | a :: b :: t, _ => by
    obtain ⟨q, hq, hql⟩ := lastNum_mem (b :: t) (by simp)
    exact ⟨q, List.mem_cons_of_mem a hq, by rw [lastNum_cons_cons]; exact hql⟩

theorem le_lastNum :
    ∀ reg : List (Nat × (Store → Except String Store)),
      List.Pairwise (fun p q => p.1 < q.1) reg →
      ∀ np ∈ reg, np.1 ≤ lastNum reg
  | [], _, np, h => absurd h (by simp)
  | [(n, p)], _, np, h => by
    simp only [List.mem_singleton] at h
    subst h
    exact le_refl n
  | a :: b :: t, hp, np, h => by
    rw [lastNum_cons_cons]
    rcases List.mem_cons.mp h with h1 | h1
    · subst h1
      obtain ⟨q, hq, hql⟩ := lastNum_mem (b :: t) (by simp)
      have hlt := (List.pairwise_cons.mp hp).1 q hq
      rw [← hql]
      exact le_of_lt hlt
    · exact le_lastNum (b :: t) (List.pairwise_cons.mp hp).2 np h1

theorem runFrom_skip_all :
    ∀ (reg : List (Nat × (Store → Except String Store))) (s : Store)
      (cur : Nat), (∀ np ∈ reg, np.1 < cur) →
      runFrom reg s cur = Except.ok (s, cur)
  | [], _, _, _ => rfl
  | (n, p) :: rest, s, cur, h => by
    have hn : n < cur := h (n, p) (by simp)
    simp only [runFrom, if_pos hn]
    exact runFrom_skip_all rest s cur (fun np hnp => h np (by simp [hnp]))

theorem runFrom_completes :
    ∀ (reg : List (Nat × (Store → Except String Store))) (s : Store)
      (cur : Nat), reg ≠ [] →
      List.Pairwise (fun p q => p.1 < q.1) reg →
      (∀ np ∈ reg, ∀ t : Store, ∃ t2, np.2 t = Except.ok t2) →
      getMigrationState s = Except.ok ⟨cur⟩ →
      cur ≤ lastNum reg + 1 →
      ∃ s2, runFrom reg s cur = Except.ok (s2, lastNum reg + 1) ∧
        getMigrationState s2 = Except.ok ⟨lastNum reg + 1⟩
  | [], _, _, hne, _, _, _, _ => absurd rfl hne
  | [(n, p)], s, cur, _, _, hprocs, hget, hle => by
    simp only [lastNum] at hle ⊢
    by_cases hlt : n < cur
    · have hcur : cur = n + 1 := by omega
      subst hcur
      exact ⟨s, by simp only [runFrom, if_pos hlt], hget⟩
    · obtain ⟨s2, hs2⟩ := hprocs (n, p) (by simp) s
      have hs2p : p s = Except.ok s2 := hs2
      refine ⟨setMigrationState s2 (n + 1), ?_,
        getMigrationState_setMigrationState s2 (n + 1)⟩
      simp only [runFrom, if_neg hlt, hs2p]
  | a :: b :: t, s, cur, _, hp, hprocs, hget, hle => by
    obtain ⟨n, p⟩ := a
    rw [lastNum_cons_cons] at hle ⊢
    have hne2 : (b :: t) ≠ ([] : List (Nat × (Store → Except String Store))) :=
      by simp
    have hp2 := (List.pairwise_cons.mp hp).2
    have hprocs2 : ∀ np ∈ b :: t, ∀ t0 : Store, ∃ t2, np.2 t0 = Except.ok t2 :=
      fun np hnp t0 => hprocs np (List.mem_cons_of_mem _ hnp) t0
    by_cases hlt : n < cur
    · obtain ⟨s2, h1, h2⟩ :=
        runFrom_completes (b :: t) s cur hne2 hp2 hprocs2 hget hle
      exact ⟨s2, by simp only [runFrom, if_pos hlt]; exact h1, h2⟩
    · obtain ⟨s2, hs2⟩ := hprocs (n, p) (by simp) s
      have hs2p : p s = Except.ok s2 := hs2
      have hnlast : n < lastNum (b :: t) := by
        obtain ⟨q, hq, hql⟩ := lastNum_mem (b :: t) hne2
        have := (List.pairwise_cons.mp hp).1 q hq
        omega
      obtain ⟨s3, h1, h2⟩ := runFrom_completes (b :: t)
        (setMigrationState s2 (n + 1)) (n + 1) hne2 hp2 hprocs2
        (getMigrationState_setMigrationState s2 (n + 1)) (by omega)
      exact ⟨s3, by simp only [runFrom, if_neg hlt, hs2p]; exact h1, h2⟩

/-- C6: run_pending is monotone and idempotent — after it completes, the
persisted cursor is one past the highest registered migration number;
running it again on the resulting store is a no-op returning the same store;
and a migration whose number is below the current cursor is structurally
skipped, its procedure never invoked. -/
theorem runPending_monotone_idempotent
    (reg : List (Nat × (Store → Except String Store))) (s : Store) (cur : Nat)
    (hne : reg ≠ [])
    (hinc : List.Pairwise (fun p q => p.1 < q.1) reg)
    (hprocs : ∀ np ∈ reg, ∀ t : Store, ∃ t2, np.2 t = Except.ok t2)
    (hget : getMigrationState s = Except.ok ⟨cur⟩)
    (hle : cur ≤ lastNum reg + 1) :
    ∃ s2, runPending reg s = Except.ok s2 ∧
      getMigrationState s2 = Except.ok ⟨lastNum reg + 1⟩ ∧
      runPending reg s2 = Except.ok s2 ∧
      (∀ (n : Nat) (p : Store → Except String Store)
        (rest : List (Nat × (Store → Except String Store)))
        (t : Store) (c : Nat),
        n < c → runFrom ((n, p) :: rest) t c = runFrom rest t c) := by
  obtain ⟨s2, h1, h2⟩ := runFrom_completes reg s cur hne hinc hprocs hget hle
  refine ⟨s2, ?_, h2, ?_, ?_⟩
  · simp only [runPending, hget, h1]
  · have hskip : runFrom reg s2 (lastNum reg + 1) =
        Except.ok (s2, lastNum reg + 1) :=
      runFrom_skip_all reg s2 (lastNum reg + 1)
        (fun np hnp => Nat.lt_succ_of_le (le_lastNum reg hinc np hnp))
    simp only [runPending, h2, hskip]
  · intro n p rest t c hc
    simp only [runFrom, if_pos hc]

theorem runPending_monotone_idempotent_witness :
    ∃ s2, runPending [(0, Except.ok), (1, Except.ok)] ⟨[]⟩ = Except.ok s2 ∧
      getMigrationState s2 = Except.ok ⟨2⟩ ∧
      runPending [(0, Except.ok), (1, Except.ok)] s2 = Except.ok s2 ∧
      (∀ (n : Nat) (p : Store → Except String Store)
        (rest : List (Nat × (Store → Except String Store)))
        (t : Store) (c : Nat),
        n < c → runFrom ((n, p) :: rest) t c = runFrom rest t c) :=
  runPending_monotone_idempotent [(0, Except.ok), (1, Except.ok)] ⟨[]⟩ 0
    (by simp) (by simp)
    (fun np hnp t => by
      rcases List.mem_cons.mp hnp with h | h
      · subst h; exact ⟨t, rfl⟩
      · rcases List.mem_cons.mp h with h2 | h2
        · subst h2; exact ⟨t, rfl⟩
        · exact absurd h2 (by simp))
    rfl (Nat.zero_le _)
